import Mathlib

/-!
# Verification of the forgeflow / dataforge resilience core

Shallow embedding of the pipeline executor (`src/forgeflow/pipeline/executor.py`),
the retry and circuit-breaker primitives (`src/forgeflow/core/retry.py`), and the
rate limiters and memory cache (`src/dataforge/core/rate_limiter.py`,
`src/dataforge/core/cache.py`).  Python floats and wall-clock instants are
modelled as rationals (`ℚ`); Python dict/list state is modelled as association
lists and lists with explicit state passing; raised exceptions are modelled as
explicit error values.
-/

namespace ForgeFlow

/-! ## Pipeline executor (src/forgeflow/pipeline/executor.py)

`PipelineExecutor.execute` receives a plain dict.  We model the dict as a
record of optional fields (`none` = key absent) and the behaviour of the
constructed connector / transformer / sinks through an oracle `RunEnv` that
says whether each runtime call succeeds.  The trace of calls actually made is
recorded as a list of events. -/

/-- A stage entry of the pipeline dict: `config.get("type")`.
The nested `config` mapping is irrelevant to the claims. -/
structure StageSpec where
  type : Option String
deriving DecidableEq, Repr

/-- The pipeline dict passed to `execute`; `none` models a missing key. -/
structure PipelineDict where
  name : Option String
  enabled : Option Bool
  connector : Option StageSpec
  transformer : Option StageSpec
  sinks : Option (List StageSpec)
deriving DecidableEq, Repr

/-- `PipelineExecutor.CONNECTORS` registry keys. -/
def CONNECTORS : List String := ["http", "rest"]

/-- `PipelineExecutor.TRANSFORMERS` registry keys. -/
def TRANSFORMERS : List String := ["json_normalizer"]

/-- `PipelineExecutor.SINKS` registry keys. -/
def SINKS : List String := ["postgres", "duckdb", "file"]

/-- `_create_*` succeeds iff `config.get("type")` is present, truthy and in the
registry (an empty string is falsy in Python, but the registries contain no
empty string, so membership already excludes it). -/
def stageValid (registry : List String) (s : StageSpec) : Bool :=
  match s.type with
  | none => false
  | some t => registry.contains t

/-- Calls made by one run of `execute`; `createSink i`, `write i`, `closeSink i`
refer to the sink at 0-based position `i` of the spec's sink list. -/
inductive Ev where
  | createConnector
  | createTransformer
  | createSink (i : ℕ)
  | fetch
  | transform
  | write (i : ℕ)
  | closeConnector
  | closeSink (i : ℕ)
deriving DecidableEq, Repr

/-- Oracle for the runtime behaviour of the constructed stage objects:
whether `fetch`, `transform`, each `write` and each `close` succeeds. -/
structure RunEnv where
  fetchOk : Bool
  transformOk : Bool
  writeOk : ℕ → Bool
  closeConnectorOk : Bool
  closeSinkOk : ℕ → Bool

/-- The exceptions `execute` can let escape: the bare `KeyError` from
`pipeline["name"]`, the `PipelineException` wrapper raised by the `except`
clause, and an exception escaping from a `close()` call in the `finally`
block. -/
inductive PyError where
  | keyError (k : String)
  | pipelineError
  | closeError
deriving DecidableEq, Repr

/-- The list comprehension `[self._create_sink(c) for c in pipeline["sinks"]]`:
constructs sinks left to right, emitting `createSink i` per constructed sink;
returns `false` if some `_create_sink` raises (in which case the `sinks`
variable is never assigned and stays `[]`). -/
def buildSinks : List StageSpec → ℕ → List Ev × Bool
  | [], _ => ([], true)
  | c :: rest, i =>
    if stageValid SINKS c then
      let r := buildSinks rest (i + 1)
      (Ev.createSink i :: r.1, r.2)
    else ([], false)

/-- The `for sink in sinks: await sink.write(...)` loop over the constructed
sinks (the list entry at position `i` standing for the sink object built from
it): emits `write i` for each attempted write and stops at the first failing
one. -/
def writeSinks (env : RunEnv) : List StageSpec → ℕ → List Ev × Bool
  | [], _ => ([], true)
  | _ :: rest, i =>
    if env.writeOk i then
      let r := writeSinks env rest (i + 1)
      (Ev.write i :: r.1, r.2)
    else ([Ev.write i], false)

/-- The `for sink in sinks: await sink.close()` loop of the `finally` block:
emits `closeSink i` for each attempted close and stops at the first close
that raises (nothing in the `finally` block catches it). -/
def closeSinks (env : RunEnv) : List StageSpec → ℕ → List Ev × Bool
  | [], _ => ([], true)
  | _ :: rest, i =>
    if env.closeSinkOk i then
      let r := closeSinks env rest (i + 1)
      (Ev.closeSink i :: r.1, r.2)
    else ([Ev.closeSink i], false)

/-- Outcome of the `try` body of `execute`: the wrapped error if any, the calls
made, whether the `connector` local was assigned, and the value of the `sinks`
local when the `finally` block runs (spec entries standing for the constructed
sink objects). -/
structure BodyOut where
  err : Option PyError
  evs : List Ev
  connResolved : Bool
  sinksHeld : List StageSpec
deriving Repr

/-- The `try` body of `execute` (lines 43-62): resolve connector, transformer
and sinks, then fetch, transform and write.  Any exception is caught by the
`except Exception` clause and re-raised as `PipelineException`
(`.pipelineError`).  A failure while building the sink list leaves the
`sinks` local at `[]`. -/
def execBody (p : PipelineDict) (env : RunEnv) : BodyOut :=
  match p.connector with
  | none => ⟨some .pipelineError, [], false, []⟩
  | some ccfg =>
    if stageValid CONNECTORS ccfg then
      match p.transformer with
      | none => ⟨some .pipelineError, [Ev.createConnector], true, []⟩
      | some tcfg =>
        if stageValid TRANSFORMERS tcfg then
          match p.sinks with
          | none => ⟨some .pipelineError, [Ev.createConnector, Ev.createTransformer], true, []⟩
          | some scfgs =>
            let sb := buildSinks scfgs 0
            let evs2 := Ev.createConnector :: Ev.createTransformer :: sb.1
            if sb.2 then
              if env.fetchOk then
                if env.transformOk then
                  let wr := writeSinks env scfgs 0
                  ⟨if wr.2 then none else some .pipelineError,
                    evs2 ++ [Ev.fetch, Ev.transform] ++ wr.1, true, scfgs⟩
                else
                  ⟨some .pipelineError, evs2 ++ [Ev.fetch, Ev.transform], true, scfgs⟩
              else
                ⟨some .pipelineError, evs2 ++ [Ev.fetch], true, scfgs⟩
            else ⟨some .pipelineError, evs2, true, []⟩
        else ⟨some .pipelineError, [Ev.createConnector], true, []⟩
    else ⟨some .pipelineError, [], false, []⟩

/-- The `finally` block (lines 64-68): close the connector if the local was
assigned, then close each sink held by the `sinks` local.  An exception from
any `close()` propagates out of the `finally` block (there is no handler),
aborting the remaining closes. -/
def cleanupModel (env : RunEnv) (connResolved : Bool) (held : List StageSpec) :
    Option PyError × List Ev :=
  if connResolved then
    if env.closeConnectorOk then
      let cs := closeSinks env held 0
      (if cs.2 then none else some .closeError, Ev.closeConnector :: cs.1)
    else (some .closeError, [Ev.closeConnector])
  else
    let cs := closeSinks env held 0
    (if cs.2 then none else some .closeError, cs.1)

/-- `PipelineExecutor.execute` (lines 30-68).  `pipeline["name"]` is read
before anything else and raises a bare `KeyError` when absent; a falsy
`enabled` (default `True`) returns immediately; otherwise the body runs and
the `finally` block closes resources.  Per Python semantics, an exception
raised inside `finally` replaces the in-flight exception of the body. -/
def executeModel (p : PipelineDict) (env : RunEnv) : Option PyError × List Ev :=
  match p.name with
  | none => (some (.keyError "name"), [])
  | some _ =>
    if p.enabled.getD true = false then (none, [])
    else
      let b := execBody p env
      let c := cleanupModel env b.connResolved b.sinksHeld
      ((c.1).elim b.err some, b.evs ++ c.2)

/-! ## Circuit breaker (src/forgeflow/core/retry.py, class CircuitBreaker)

Wall-clock instants (`time.time()`) are passed in explicitly as `now : ℚ`;
the behaviour of the wrapped operation at each call is an oracle Boolean
(`true` = the awaited call returns, `false` = it raises an exception matched
by `expected_exception`). -/

/-- The `_state` string: `"closed"`, `"open"` or `"half_open"`. -/
inductive CBStatus where
  | closed
  | opened
  | halfOpen
deriving DecidableEq, Repr

/-- Constructor arguments of `CircuitBreaker`. -/
structure CBConfig where
  failureThreshold : ℕ
  recoveryTimeout : ℚ
deriving Repr

/-- Mutable fields `_failure_count`, `_last_failure_time`, `_state`. -/
structure CBState where
  failureCount : ℕ
  lastFailureTime : Option ℚ
  status : CBStatus
deriving DecidableEq, Repr

/-- Initial state set by `__init__`. -/
def cbInit : CBState := ⟨0, none, .closed⟩

/-- Result of one `call`: rejected with the circuit-open exception before the
operation runs, returned normally, or re-raised the operation's exception. -/
inductive CBResult where
  | circuitOpenError
  | returned
  | raised
deriving DecidableEq, Repr

/-- `_should_attempt_reset`: `time.time() - self._last_failure_time >=
self.recovery_timeout` (false when no failure was recorded). -/
def shouldAttemptReset (cfg : CBConfig) (st : CBState) (now : ℚ) : Bool :=
  match st.lastFailureTime with
  | none => false
  | some t => decide (cfg.recoveryTimeout ≤ now - t)

/-- `_on_success`: reset the failure count; a half-open breaker closes. -/
def cbOnSuccess (st : CBState) : CBState :=
  { st with
    failureCount := 0
    status := if st.status = .halfOpen then .closed else st.status }

/-- `_on_failure`: increment the count, stamp `_last_failure_time`, and open
the circuit when the count reaches the threshold. -/
def cbOnFailure (cfg : CBConfig) (st : CBState) (now : ℚ) : CBState :=
  { failureCount := st.failureCount + 1
    lastFailureTime := some now
    status :=
      if cfg.failureThreshold ≤ st.failureCount + 1 then .opened else st.status }

/-- `CircuitBreaker.call` (lines 151-182) as a state transition: when open,
either reject immediately or move to half-open and let the call through; an
admitted call runs the operation and applies `_on_success` / `_on_failure`. -/
def cbCall (cfg : CBConfig) (st : CBState) (now : ℚ) (opSucceeds : Bool) :
    CBState × CBResult :=
  if st.status = .opened ∧ ¬ shouldAttemptReset cfg st now then
    (st, .circuitOpenError)
  else
    let st1 :=
      if st.status = .opened then { st with status := .halfOpen } else st
    if opSucceeds then (cbOnSuccess st1, .returned)
    else (cbOnFailure cfg st1 now, .raised)

/-! ## Retry with backoff (src/forgeflow/core/retry.py, retry_async)

`retry_async` delegates to the tenacity library:
`AsyncRetrying(stop=stop_after_attempt(max_attempts),
wait=wait_exponential(multiplier=multiplier, min=min_wait, max=max_wait),
retry=retry_if_exception_type(retry_on), reraise=True)`.  tenacity's
`wait_exponential` (its documented and long-stable semantics, default
`exp_base = 2`) computes, after the failed attempt numbered `n`,
`max(max(0, min), min(multiplier * exp_base ** (n - 1), max))`; we embed that
formula directly since tenacity is an external dependency. -/

/-- Constructor arguments of `RetryConfig` relevant to the backoff schedule. -/
structure RetryCfg where
  maxAttempts : ℕ
  minWait : ℚ
  maxWait : ℚ
  multiplier : ℚ
deriving Repr

/-- tenacity `wait_exponential.__call__` with `exp_base = 2`, where
`n` is the 1-indexed number of the attempt that just failed. -/
def waitExponential (cfg : RetryCfg) (n : ℕ) : ℚ :=
  max (max 0 cfg.minWait) (min (cfg.multiplier * 2 ^ (n - 1)) cfg.maxWait)

/-- The sleep inserted before attempt `k` (`k ≥ 2`) when every earlier attempt
failed with a retryable error: tenacity computes the wait from the attempt
number `k - 1` of the attempt that just failed. -/
def waitBeforeAttempt (cfg : RetryCfg) (k : ℕ) : ℚ :=
  waitExponential cfg (k - 1)

/-- Modelled from the spec: §4.4 states attempt `k` (1-indexed, `k ≥ 2`) is
preceded by a wait of `min(maxWait, minWait * multiplier^(k-1))` seconds.
Stated here only to compare with the code's schedule. -/
def specWaitBeforeAttempt (cfg : RetryCfg) (k : ℕ) : ℚ :=
  min cfg.maxWait (cfg.minWait * cfg.multiplier ^ (k - 1))

/-- The retry loop of `retry_async` on an operation whose attempt `k` succeeds
iff `opOk k`: starting at attempt number `a` with `fuel` attempts remaining,
returns whether the whole call succeeded and the list of sleeps performed,
in order.  `stop_after_attempt` ends the loop (re-raising, `reraise=True`)
when the failed attempt exhausts the budget. -/
def retryGo (cfg : RetryCfg) (opOk : ℕ → Bool) : ℕ → ℕ → Bool × List ℚ
  | _, 0 => (false, [])
  | a, fuel + 1 =>
    if opOk a then (true, [])
    else
      if fuel = 0 then (false, [])
      else
        let r := retryGo cfg opOk (a + 1) fuel
        (r.1, waitExponential cfg a :: r.2)

/-- `retry_async(func, config)`: attempt numbers start at 1 and at most
`max_attempts` attempts run. -/
def retryRun (cfg : RetryCfg) (opOk : ℕ → Bool) : Bool × List ℚ :=
  retryGo cfg opOk 1 cfg.maxAttempts

end ForgeFlow

namespace DataForge

/-! ## Token-bucket rate limiter (src/dataforge/core/rate_limiter.py, RateLimiter)

Monotonic-clock instants are passed in as `now : ℚ`.  One iteration of the
`while True` loop of `acquire` is `tbTryAcquire`: refill, then either take the
tokens and return, or compute the wait time and sleep (the loop then re-runs
at a later `now`). -/

/-- Constructor state of `RateLimiter`; `burst_size = burst_size or
max_requests` is applied by the caller of this model. -/
structure TBConfig where
  maxRequests : ℕ
  timeWindow : ℚ
  burstSize : ℕ
deriving Repr

/-- Mutable fields `_tokens` and `_last_update`. -/
structure TBState where
  tokens : ℚ
  lastUpdate : ℚ
deriving DecidableEq, Repr

/-- `__init__`: a full bucket stamped with the current time. -/
def tbInit (cfg : TBConfig) (now : ℚ) : TBState :=
  ⟨(cfg.burstSize : ℚ), now⟩

/-- `_refill`: add `elapsed * (max_requests / time_window)` tokens, capped at
`burst_size`, and stamp `_last_update`. -/
def tbRefill (cfg : TBConfig) (st : TBState) (now : ℚ) : TBState :=
  ⟨min (cfg.burstSize : ℚ)
      (st.tokens + (now - st.lastUpdate) * ((cfg.maxRequests : ℚ) / cfg.timeWindow)),
    now⟩

/-- One iteration of the `acquire` loop at instant `now`, requesting `tokens`
tokens: refill, then either grant (`none` = returned without sleeping) or
report the computed sleep `(tokens - available) * (time_window / max_requests)`
(`some wait`). -/
def tbTryAcquire (cfg : TBConfig) (st : TBState) (now : ℚ) (tokens : ℚ) :
    TBState × Option ℚ :=
  let st1 := tbRefill cfg st now
  if tokens ≤ st1.tokens then (⟨st1.tokens - tokens, now⟩, none)
  else (st1, some ((tokens - st1.tokens) * (cfg.timeWindow / (cfg.maxRequests : ℚ))))

/-- `n` consecutive `acquire(1)` calls all issued at the same instant `now`:
returns the final state and whether every call was granted on its first loop
iteration (no sleep at all). -/
def tbAcquireRepeat (cfg : TBConfig) (now : ℚ) : ℕ → TBState → TBState × Bool
  | 0, st => (st, true)
  | n + 1, st =>
    let r := tbTryAcquire cfg st now 1
    if r.2 = none then tbAcquireRepeat cfg now n r.1 else (r.1, false)

/-! ## Sliding-window rate limiter (SlidingWindowRateLimiter) -/

/-- Constructor arguments of `SlidingWindowRateLimiter`. -/
structure SWConfig where
  maxRequests : ℕ
  timeWindow : ℚ
deriving Repr

/-- The pruning loop of `acquire`: drop from the front of `_requests` every
timestamp `≤ now - time_window` (the deque is kept in insertion order, which
is time order for a monotone clock). -/
def swPrune (cfg : SWConfig) (now : ℚ) (reqs : List ℚ) : List ℚ :=
  reqs.dropWhile (fun t => decide (t ≤ now - cfg.timeWindow))

/-- One iteration of the `acquire` loop at instant `now`: prune, then admit
(append `now`) iff fewer than `max_requests` timestamps remain; `none` means
the call computes a wait and sleeps, to retry at a later instant. -/
def swStep (cfg : SWConfig) (reqs : List ℚ) (now : ℚ) : Option (List ℚ) :=
  let pruned := swPrune cfg now reqs
  if pruned.length < cfg.maxRequests then some (pruned ++ [now]) else none

/-- A run of successive successful admissions: `ts` are the instants at which
the calls were admitted (i.e. the loop iteration that appended a timestamp),
starting from deque contents `reqs`.  `none` if some listed instant would not
in fact have been admitted. -/
def swRun (cfg : SWConfig) : List ℚ → List ℚ → Option (List ℚ)
  | [], reqs => some reqs
  | t :: ts, reqs =>
    match swStep cfg reqs t with
    | some reqs1 => swRun cfg ts reqs1
    | none => none

/-- Number of instants of `ts` lying in the trailing window `(t - W, t]`. -/
def inWindowCount (cfg : SWConfig) (t : ℚ) (ts : List ℚ) : ℕ :=
  ts.countP (fun a => decide (t - cfg.timeWindow < a) && decide (a ≤ t))

/-! ## Adaptive rate limiter (AdaptiveRateLimiter) -/

/-- Constructor arguments of `AdaptiveRateLimiter` relevant to the rate. -/
structure ARConfig where
  minRate : ℚ
  maxRate : ℚ
  increaseFactor : ℚ
  decreaseFactor : ℚ
deriving Repr

/-- `on_success`: `current_rate = min(max_rate, current_rate * increase_factor)`. -/
def arOnSuccess (cfg : ARConfig) (rate : ℚ) : ℚ :=
  min cfg.maxRate (rate * cfg.increaseFactor)

/-- `on_error`: `current_rate = max(min_rate, current_rate * decrease_factor)`. -/
def arOnError (cfg : ARConfig) (rate : ℚ) : ℚ :=
  max cfg.minRate (rate * cfg.decreaseFactor)

/-- One observed call outcome reported to the limiter. -/
inductive AREvent where
  | success
  | error
deriving DecidableEq, Repr

/-- Apply one `on_success` / `on_error` call. -/
def arStep (cfg : ARConfig) (rate : ℚ) : AREvent → ℚ
  | .success => arOnSuccess cfg rate
  | .error => arOnError cfg rate

/-- `current_rate` after a sequence of `on_success` / `on_error` calls
following construction with `initial_rate = r0`. -/
def arRun (cfg : ARConfig) (r0 : ℚ) (es : List AREvent) : ℚ :=
  es.foldl (arStep cfg) r0

/-! ## Memory cache (src/dataforge/core/cache.py, MemoryCache)

`_cache: dict[str, tuple[Any, float]]` is modelled as an association list with
distinct keys (lookup finds the unique entry), `_access_order: list[str]` as a
plain list.  `time.time()` instants are passed in as `now : ℚ`. -/

/-- Lookup the (first) entry with the given key: `d[k]` / `k in d`. -/
def lookupK (k : String) : List (String × β) → Option β
  | [] => none
  | (k1, v) :: rest => if k1 = k then some v else lookupK k rest

/-- Delete the (first) entry with the given key: `del d[k]`. -/
def eraseK (k : String) : List (String × β) → List (String × β)
  | [] => []
  | (k1, v) :: rest => if k1 = k then rest else (k1, v) :: eraseK k rest

/-- `d[k] = v`: update the existing entry in place, or append a new one. -/
def setK (k : String) (v : β) : List (String × β) → List (String × β)
  | [] => [(k, v)]
  | (k1, v1) :: rest => if k1 = k then (k, v) :: rest else (k1, v1) :: setK k v rest

/-- The keys of an association list, in order. -/
def keysOf (l : List (String × β)) : List String :=
  l.map Prod.fst

/-- Constructor arguments of `MemoryCache`. -/
structure MCConfig where
  ttl : Option ℚ
  maxEntries : ℕ
deriving Repr

/-- Mutable fields `_cache` (value, stored-at pairs) and `_access_order`. -/
structure MCState (α : Type) where
  cache : List (String × α × ℚ)
  accessOrder : List String
deriving Repr

/-- The TTL test of `get`: `self.ttl is not None and (time.time() - timestamp)
> self.ttl`. -/
def mcExpired (cfg : MCConfig) (now ts : ℚ) : Bool :=
  match cfg.ttl with
  | none => false
  | some ttl => decide (ttl < now - ts)

/-- `MemoryCache.get` (lines 53-82): a miss returns `None`; an expired hit
deletes the entry and returns `None`; a live hit moves the key to the
most-recently-used tail of `_access_order` and returns the value. -/
def mcGet (cfg : MCConfig) (st : MCState α) (now : ℚ) (k : String) :
    Option α × MCState α :=
  match lookupK k st.cache with
  | none => (none, st)
  | some (v, ts) =>
    if mcExpired cfg now ts then
      (none, ⟨eraseK k st.cache, st.accessOrder.erase k⟩)
    else
      (some v, ⟨st.cache, st.accessOrder.erase k ++ [k]⟩)

/-- `MemoryCache.set` (lines 84-104): when at capacity and inserting a new
key, first evict the least-recently-used key `_access_order.pop(0)` (`none`
models the `IndexError` Python raises there when `_access_order` is empty,
leaving the state unmutated); then store the entry and move the key to the
most-recently-used tail. -/
def mcSet (cfg : MCConfig) (st : MCState α) (now : ℚ) (k : String) (v : α) :
    Option (MCState α) :=
  if cfg.maxEntries ≤ st.cache.length ∧ (lookupK k st.cache).isNone then
    match st.accessOrder with
    | [] => none
    | oldest :: rest =>
      some ⟨setK k (v, now) (eraseK oldest st.cache), (rest.erase k) ++ [k]⟩
  else
    some ⟨setK k (v, now) st.cache, (st.accessOrder.erase k) ++ [k]⟩

/-- `MemoryCache.delete` (lines 113-128). -/
def mcDelete (st : MCState α) (k : String) : Bool × MCState α :=
  if (lookupK k st.cache).isSome then
    (true, ⟨eraseK k st.cache, st.accessOrder.erase k⟩)
  else (false, st)

/-- `MemoryCache.clear` (lines 106-111). -/
def mcClear (_st : MCState α) : MCState α :=
  ⟨[], []⟩

/-- The LRU invariant of the spec's data model: `_access_order` holds distinct
keys, `_cache` holds distinct keys, the two key sets coincide, and the entry
count never exceeds `max_entries`. -/
def MCInv (cfg : MCConfig) (st : MCState α) : Prop :=
  st.accessOrder.Nodup ∧
  (keysOf st.cache).Nodup ∧
  (∀ k, k ∈ st.accessOrder ↔ k ∈ keysOf st.cache) ∧
  st.cache.length ≤ cfg.maxEntries

end DataForge

open ForgeFlow DataForge

/-! ## Theorems: pipeline executor -/

/-- When every `close()` succeeds, the sink-close loop closes each held sink
exactly once, in order. -/
theorem closeSinks_all_ok (env : RunEnv) (hs : ∀ i, env.closeSinkOk i = true) :
    ∀ (l : List StageSpec) (i : ℕ),
      closeSinks env l i = ((List.range' i l.length).map Ev.closeSink, true) := by
  intro l
  induction l with
  | nil => intro i; simp [closeSinks]
  | cons a rest ih =>
    intro i
    simp [closeSinks, hs i, ih (i + 1), List.range'_succ]

/-- C1: the claim is FALSE as stated.  Concrete run: the single sink's `write`
fails (so the body raises `PipelineException`), and `connector.close()` also
raises.  The `finally` block has no handler, so the close error escapes —
replacing the original pipeline error — and the sink is never closed. -/
theorem execute_close_error_counterexample :
    (executeModel
        ⟨some "p1", none, some ⟨some "http"⟩, some ⟨some "json_normalizer"⟩,
          some [⟨some "file"⟩]⟩
        ⟨true, true, fun _ => false, false, fun _ => true⟩).1 = some .closeError ∧
    Ev.closeSink 0 ∉
      (executeModel
        ⟨some "p1", none, some ⟨some "http"⟩, some ⟨some "json_normalizer"⟩,
          some [⟨some "file"⟩]⟩
        ⟨true, true, fun _ => false, false, fun _ => true⟩).2 := by
  decide

/-- C1 [amended]: on every enabled run, whatever the body's outcome, the
cleanup phase closes the connector (if its local was resolved) and then every
sink held by the `sinks` local (all constructed sinks when the sink-list
construction completed; none when it failed partway), each exactly once and in
order, and — provided no `close()` raises — the body's error (or success) is
reported unchanged.  (When a `close()` raises, the error escapes the `finally`
block, replacing the body's error and skipping the remaining closes, as the
counterexample shows.) -/
theorem execute_cleanup_closes_all (p : PipelineDict) (env : RunEnv) (s : String)
    (hname : p.name = some s) (hen : p.enabled.getD true = true)
    (hc : env.closeConnectorOk = true) (hs : ∀ i, env.closeSinkOk i = true) :
    executeModel p env =
      ((execBody p env).err,
        (execBody p env).evs
          ++ ((if (execBody p env).connResolved then [Ev.closeConnector] else [])
            ++ (List.range (execBody p env).sinksHeld.length).map Ev.closeSink)) := by
  have hcs := closeSinks_all_ok env hs (execBody p env).sinksHeld 0
  rw [List.range_eq_range']
  cases hcr : (execBody p env).connResolved <;>
    simp [executeModel, hname, hen, cleanupModel, hc, hcr, hcs]

/-- Witness for the amended C1: a run whose transformer type is unknown — the
body fails at stage resolution, the connector (already resolved) is closed,
no sinks are held, and the `PipelineException` is reported. -/
theorem execute_cleanup_closes_all_witness :
    executeModel ⟨some "p1", none, some ⟨some "http"⟩, some ⟨some "bogus"⟩, some [⟨some "file"⟩]⟩
        ⟨true, true, fun _ => true, true, fun _ => true⟩ =
      ((execBody ⟨some "p1", none, some ⟨some "http"⟩, some ⟨some "bogus"⟩, some [⟨some "file"⟩]⟩
          ⟨true, true, fun _ => true, true, fun _ => true⟩).err,
        (execBody ⟨some "p1", none, some ⟨some "http"⟩, some ⟨some "bogus"⟩, some [⟨some "file"⟩]⟩
          ⟨true, true, fun _ => true, true, fun _ => true⟩).evs
          ++ ((if (execBody ⟨some "p1", none, some ⟨some "http"⟩, some ⟨some "bogus"⟩,
                some [⟨some "file"⟩]⟩
                ⟨true, true, fun _ => true, true, fun _ => true⟩).connResolved
              then [Ev.closeConnector] else [])
            ++ (List.range (execBody ⟨some "p1", none, some ⟨some "http"⟩, some ⟨some "bogus"⟩,
                some [⟨some "file"⟩]⟩
                ⟨true, true, fun _ => true, true, fun _ => true⟩).sinksHeld.length).map
                Ev.closeSink)) :=
  execute_cleanup_closes_all _ _ "p1" rfl rfl rfl (fun _ => rfl)

/-- C4: with two sinks where the first write succeeds and the second fails,
`execute` raises `PipelineError`, the first sink's write ran exactly once (and
is never rolled back — no further event touches it), no sink past the second
is attempted, and each of the two sinks is closed exactly once. -/
theorem execute_two_sinks_second_write_fails
    (p : PipelineDict) (env : RunEnv) (s : String) (cc tc s0 s1 : StageSpec)
    (hname : p.name = some s) (hen : p.enabled.getD true = true)
    (hconn : p.connector = some cc) (hcv : stageValid CONNECTORS cc = true)
    (htr : p.transformer = some tc) (htv : stageValid TRANSFORMERS tc = true)
    (hsk : p.sinks = some [s0, s1])
    (hs0 : stageValid SINKS s0 = true) (hs1 : stageValid SINKS s1 = true)
    (hf : env.fetchOk = true) (ht : env.transformOk = true)
    (hw0 : env.writeOk 0 = true) (hw1 : env.writeOk 1 = false)
    (hcc : env.closeConnectorOk = true)
    (hc0 : env.closeSinkOk 0 = true) (hc1 : env.closeSinkOk 1 = true) :
    (executeModel p env).1 = some .pipelineError ∧
    (executeModel p env).2.count (Ev.write 0) = 1 ∧
    (executeModel p env).2.count (Ev.write 1) = 1 ∧
    (∀ i, 2 ≤ i → Ev.write i ∉ (executeModel p env).2) ∧
    (executeModel p env).2.count (Ev.closeSink 0) = 1 ∧
    (executeModel p env).2.count (Ev.closeSink 1) = 1 := by
  have hx : executeModel p env = (some .pipelineError,
      [Ev.createConnector, Ev.createTransformer, Ev.createSink 0, Ev.createSink 1,
       Ev.fetch, Ev.transform, Ev.write 0, Ev.write 1,
       Ev.closeConnector, Ev.closeSink 0, Ev.closeSink 1]) := by
    simp [executeModel, execBody, cleanupModel, buildSinks, writeSinks, closeSinks,
      hname, hen, hconn, hcv, htr, htv, hsk, hs0, hs1, hf, ht, hw0, hw1, hcc, hc0, hc1]
  rw [hx]
  refine ⟨rfl, by decide, by decide, ?_, by decide, by decide⟩
  intro i hi
  simp only [List.mem_cons, List.not_mem_nil, or_false]
  rintro (h | h | h | h | h | h | h | h | h | h | h) <;> first
    | exact Ev.noConfusion h
    | (injection h with h; omega)

/-- Witness for C4 at a concrete spec and environment. -/
theorem execute_two_sinks_second_write_fails_witness :
    (executeModel
        ⟨some "p1", none, some ⟨some "http"⟩, some ⟨some "json_normalizer"⟩,
          some [⟨some "file"⟩, ⟨some "postgres"⟩]⟩
        ⟨true, true, fun i => i == 0, true, fun _ => true⟩).1 = some .pipelineError := by
  have h := execute_two_sinks_second_write_fails
    ⟨some "p1", none, some ⟨some "http"⟩, some ⟨some "json_normalizer"⟩,
      some [⟨some "file"⟩, ⟨some "postgres"⟩]⟩
    ⟨true, true, fun i => i == 0, true, fun _ => true⟩
    "p1" ⟨some "http"⟩ ⟨some "json_normalizer"⟩ ⟨some "file"⟩ ⟨some "postgres"⟩
    rfl rfl rfl rfl rfl rfl rfl rfl rfl rfl rfl rfl rfl rfl rfl rfl
  exact h.1

/-- C9: a disabled pipeline (with its mandatory `name` present, cf. §6)
returns immediately: no error and no stage call of any kind. -/
theorem execute_disabled_returns_immediately (p : PipelineDict) (env : RunEnv) (s : String)
    (hname : p.name = some s) (hen : p.enabled = some false) :
    executeModel p env = (none, []) := by
  simp [executeModel, hname, hen]

/-- Witness for C9. -/
theorem execute_disabled_returns_immediately_witness :
    executeModel ⟨some "p1", some false, some ⟨some "http"⟩, some ⟨some "json_normalizer"⟩,
        some [⟨some "file"⟩]⟩
      ⟨true, true, fun _ => true, true, fun _ => true⟩ = (none, []) :=
  execute_disabled_returns_immediately _ _ "p1" rfl rfl

/-- C10: `pipeline["name"]` is evaluated before the `enabled` check, so a spec
without a `"name"` key raises a bare `KeyError` — not `PipelineError` — even
when `enabled` is `false`, and no stage is constructed. -/
theorem execute_missing_name_raises_keyError (p : PipelineDict) (env : RunEnv)
    (hname : p.name = none) :
    executeModel p env = (some (.keyError "name"), []) := by
  simp [executeModel, hname]

/-- Witness for C10: a disabled spec with no name still raises `KeyError`. -/
theorem execute_missing_name_raises_keyError_witness :
    executeModel ⟨none, some false, some ⟨some "http"⟩, some ⟨some "json_normalizer"⟩,
        some [⟨some "file"⟩]⟩
      ⟨true, true, fun _ => true, true, fun _ => true⟩ = (some (.keyError "name"), []) :=
  execute_missing_name_raises_keyError _ _ rfl

/-! ## Theorems: circuit breaker -/

/-- C2: (1) a failure that brings the consecutive-failure count to the
threshold opens the circuit and stamps `lastFailureAt`; (2) while open, every
call made strictly before `recoveryTimeout` has elapsed since `lastFailureAt`
is rejected with the circuit-open error, with the state untouched and the
wrapped operation never consulted (the result is the same for both possible
operation outcomes); (3) once `recoveryTimeout` has elapsed, the call is let
through as a half-open probe whose outcome alone decides the next state: a
successful probe closes the circuit and resets the count, a failing probe
re-opens it and refreshes `lastFailureAt`. -/
theorem circuitBreaker_protocol (cfg : CBConfig) :
    (∀ (st : CBState) (now : ℚ), st.status ≠ .opened →
      cfg.failureThreshold ≤ st.failureCount + 1 →
      cbCall cfg st now false = (⟨st.failureCount + 1, some now, .opened⟩, .raised)) ∧
    (∀ (st : CBState) (t now : ℚ) (b : Bool), st.status = .opened →
      st.lastFailureTime = some t → now - t < cfg.recoveryTimeout →
      cbCall cfg st now b = (st, .circuitOpenError)) ∧
    (∀ (st : CBState) (t now : ℚ), st.status = .opened →
      st.lastFailureTime = some t → cfg.recoveryTimeout ≤ now - t →
      cbCall cfg st now true = (⟨0, some t, .closed⟩, .returned) ∧
      (cfg.failureThreshold ≤ st.failureCount →
        cbCall cfg st now false = (⟨st.failureCount + 1, some now, .opened⟩, .raised))) := by
  refine ⟨?_, ?_, ?_⟩
  · intro st now hst hcnt
    simp [cbCall, hst, cbOnFailure, hcnt]
  · intro st t now b hst hlt hlt2
    have hres : shouldAttemptReset cfg st now = false := by
      simp [shouldAttemptReset, hlt]
      linarith
    simp [cbCall, hst, hres]
  · intro st t now hst hlt hle
    have hres : shouldAttemptReset cfg st now = true := by
      simp [shouldAttemptReset, hlt, hle]
    refine ⟨?_, fun hcnt => ?_⟩
    · simp [cbCall, hst, hres, cbOnSuccess, hlt]
    · simp [cbCall, hst, hres, cbOnFailure, le_trans hcnt (Nat.le_succ _)]

/-- Witness for C2: threshold 2, recovery timeout 10; an open breaker that
failed at instant 5 rejects a call at instant 7. -/
theorem circuitBreaker_protocol_witness :
    cbCall ⟨2, 10⟩ ⟨2, some 5, .opened⟩ 7 true = (⟨2, some 5, .opened⟩, .circuitOpenError) :=
  (circuitBreaker_protocol ⟨2, 10⟩).2.1 ⟨2, some 5, .opened⟩ 5 7 true rfl rfl (by norm_num)

/-! ## Theorems: retry backoff -/

/-- On an operation that fails every attempt, the retry loop performs
`maxAttempts` attempts with sleeps `waitExponential 1, …,
waitExponential (maxAttempts - 1)` between them, then re-raises. -/
theorem retryGo_succ (cfg : RetryCfg) (opOk : ℕ → Bool) (a n : ℕ) :
    retryGo cfg opOk a (n + 1) =
      if opOk a then (true, [])
      else if n = 0 then (false, [])
      else ((retryGo cfg opOk (a + 1) n).1,
        waitExponential cfg a :: (retryGo cfg opOk (a + 1) n).2) := rfl

theorem retryGo_all_fail (cfg : RetryCfg) :
    ∀ (fuel a : ℕ), retryGo cfg (fun _ => false) a fuel =
      (false, (List.range' a (fuel - 1)).map (waitExponential cfg)) := by
  intro fuel
  induction fuel with
  | zero => intro a; simp [retryGo]
  | succ n ih =>
    intro a
    rcases Nat.eq_zero_or_pos n with hn | hn
    · subst hn; simp [retryGo_succ]
    · obtain ⟨m, rfl⟩ := Nat.exists_eq_succ_of_ne_zero (Nat.pos_iff_ne_zero.mp hn)
      rw [retryGo_succ, if_neg (by simp), if_neg (Nat.succ_ne_zero m), ih (a + 1)]
      simp [List.range'_succ]

/-- C3: the claim is FALSE as stated.  For the policy `{maxAttempts 3,
minWait 3, maxWait 60, multiplier 2}` and an operation failing every attempt,
the spec formula `min(maxWait, minWait * multiplier^(k-1))` predicts a wait of
6 before attempt 2, but the code (tenacity `wait_exponential`) sleeps 3:
`multiplier` is the coefficient of a fixed base-2 exponential and `minWait` is
a lower clamp, not the starting wait. -/
theorem retry_backoff_counterexample :
    (retryRun ⟨3, 3, 60, 2⟩ (fun _ => false)).2 = [3, 4] ∧
    specWaitBeforeAttempt ⟨3, 3, 60, 2⟩ 2 = 6 ∧
    waitBeforeAttempt ⟨3, 3, 60, 2⟩ 2 = 3 ∧
    specWaitBeforeAttempt ⟨3, 3, 60, 2⟩ 2 ≠ waitBeforeAttempt ⟨3, 3, 60, 2⟩ 2 := by
  refine ⟨?_, by norm_num [specWaitBeforeAttempt], by norm_num [waitBeforeAttempt, waitExponential], by norm_num [specWaitBeforeAttempt, waitBeforeAttempt, waitExponential]⟩
  have h := retryGo_all_fail ⟨3, 3, 60, 2⟩ 3 1
  rw [retryRun, h]
  norm_num [List.range', waitExponential]

/-- C3 [amended]: attempt 1 runs immediately; for an operation failing every
attempt with a retryable error, attempt `k` (1-indexed, `2 ≤ k ≤ maxAttempts`)
is preceded by a wait of exactly
`max(minWait, min(multiplier * 2^(k-2), maxWait))` seconds (tenacity
`wait_exponential`: fixed base 2, `multiplier` as coefficient, `minWait` /
`maxWait` as clamps), and exactly `maxAttempts - 1` sleeps occur before the
last error is re-raised. -/
theorem retry_backoff_schedule (cfg : RetryCfg) (k : ℕ)
    (hmin : 0 ≤ cfg.minWait) (hk2 : 2 ≤ k) (hk : k ≤ cfg.maxAttempts) :
    (retryRun cfg (fun _ => false)).2[k - 2]? =
      some (max cfg.minWait (min (cfg.multiplier * 2 ^ (k - 2)) cfg.maxWait)) ∧
    (retryRun cfg (fun _ => false)).2.length = cfg.maxAttempts - 1 ∧
    (retryRun cfg (fun _ => false)).1 = false := by
  have h := retryGo_all_fail cfg cfg.maxAttempts 1
  rw [retryRun, h]
  have hlt : k - 2 < cfg.maxAttempts - 1 := by omega
  refine ⟨?_, by simp, rfl⟩
  rw [List.getElem?_map, List.getElem?_range' _ _ hlt]
  have hidx : 1 + (k - 2) = k - 1 := by omega
  have hsub : k - 1 - 1 = k - 2 := by omega
  simp [hidx, waitExponential, hsub, max_eq_right hmin]

/-- Witness for the amended C3 at the counterexample's policy, `k = 2`. -/
theorem retry_backoff_schedule_witness :
    (retryRun ⟨3, 3, 60, 2⟩ (fun _ => false)).2[0]? =
      some (max (3 : ℚ) (min ((2 : ℚ) * 2 ^ (0 : ℕ)) 60)) :=
  by simpa using (retry_backoff_schedule ⟨3, 3, 60, 2⟩ 2 (by norm_num) (by norm_num) (by norm_num)).1

/-! ## Theorems: token-bucket rate limiter -/

/-- At a fixed instant equal to the bucket's `_last_update`, `m` successive
single-token acquisitions all succeed without sleeping as long as at least
`m` tokens are available, each consuming one token. -/
theorem tbAcquireRepeat_same_instant (cfg : TBConfig) (now : ℚ) :
    ∀ (m : ℕ) (st : TBState), st.lastUpdate = now → (m : ℚ) ≤ st.tokens →
      st.tokens ≤ (cfg.burstSize : ℚ) →
      tbAcquireRepeat cfg now m st = (⟨st.tokens - m, now⟩, true) := by
  intro m
  induction m with
  | zero =>
    intro st h1 _ _
    cases st with
    | mk tk lu => simp_all [tbAcquireRepeat]
  | succ n ih =>
    intro st h1 h2 h3
    have hn0 : (0 : ℚ) ≤ (n : ℚ) := Nat.cast_nonneg n
    push_cast at h2
    have hrefill : tbRefill cfg st now = ⟨st.tokens, now⟩ := by
      simp [tbRefill, h1, min_eq_right h3]
    have h1le : (1 : ℚ) ≤ st.tokens := by linarith
    have hstep : tbTryAcquire cfg st now 1 = (⟨st.tokens - 1, now⟩, none) := by
      simp [tbTryAcquire, hrefill, h1le]
    have hrest := ih ⟨st.tokens - 1, now⟩ rfl
      (by show (n : ℚ) ≤ st.tokens - 1; linarith)
      (by show st.tokens - 1 ≤ (cfg.burstSize : ℚ); linarith)
    rw [tbAcquireRepeat, hstep]
    simp only [hrest]
    push_cast
    congr 1
    ring_nf

/-- C5: token bucket with `maxRequests = N`, `timeWindow = W` and the default
burst size `N`, starting full at instant `t0`: `N` consecutive `acquire()`
calls at `t0` all return without sleeping, draining the bucket; the `(N+1)`-th
call at `t0` computes and sleeps exactly
`(1 - 0) * timeWindow / maxRequests = W / N`; and the re-check after waking at
`t0 + W / N` succeeds (the refill restored exactly one token). -/
theorem tokenBucket_burst_then_wait (N : ℕ) (W t0 : ℚ) (hN : 0 < N) (hW : 0 < W) :
    tbAcquireRepeat ⟨N, W, N⟩ t0 N (tbInit ⟨N, W, N⟩ t0) = (⟨0, t0⟩, true) ∧
    tbTryAcquire ⟨N, W, N⟩ ⟨0, t0⟩ t0 1 = (⟨0, t0⟩, some (W / N)) ∧
    tbTryAcquire ⟨N, W, N⟩ ⟨0, t0⟩ (t0 + W / N) 1 = (⟨0, t0 + W / N⟩, none) := by
  have hN0 : (0 : ℚ) ≤ (N : ℚ) := by positivity
  have hNne : (N : ℚ) ≠ 0 := by
    exact_mod_cast Nat.pos_iff_ne_zero.mp hN
  have hN1 : (1 : ℚ) ≤ (N : ℚ) := by exact_mod_cast hN
  refine ⟨?_, ?_, ?_⟩
  · have h := tbAcquireRepeat_same_instant ⟨N, W, N⟩ t0 N ⟨(N : ℚ), t0⟩ rfl le_rfl le_rfl
    simpa [tbInit] using h
  · have hrefill : tbRefill ⟨N, W, N⟩ ⟨0, t0⟩ t0 = ⟨0, t0⟩ := by
      simp only [tbRefill]
      have hx : (0 : ℚ) + (t0 - t0) * ((N : ℚ) / W) = 0 := by ring
      rw [hx, min_eq_right hN0]
    have hno : ¬ ((1 : ℚ) ≤ (0 : ℚ)) := by norm_num
    simp only [tbTryAcquire, hrefill, hno, if_false]
    have hw : ((1 : ℚ) - 0) * (W / (N : ℚ)) = W / N := by ring
    rw [hw]
  · have hrefill : tbRefill ⟨N, W, N⟩ ⟨0, t0⟩ (t0 + W / N) = ⟨1, t0 + W / N⟩ := by
      simp only [tbRefill]
      have hx : (0 : ℚ) + (t0 + W / N - t0) * ((N : ℚ) / W) = 1 := by
        field_simp
        ring
      rw [hx, min_eq_right hN1]
    simp only [tbTryAcquire, hrefill, le_refl, if_true]
    norm_num

/-- Witness for C5 with `N = 3`, `W = 6`, `t0 = 0`. -/
theorem tokenBucket_burst_then_wait_witness :
    tbAcquireRepeat ⟨3, 6, 3⟩ 0 3 (tbInit ⟨3, 6, 3⟩ 0) = (⟨0, 0⟩, true) ∧
    tbTryAcquire ⟨3, 6, 3⟩ ⟨0, 0⟩ 0 1 = (⟨0, 0⟩, some ((6 : ℚ) / 3)) ∧
    tbTryAcquire ⟨3, 6, 3⟩ ⟨0, 0⟩ (0 + (6 : ℚ) / 3) 1 = (⟨0, 0 + (6 : ℚ) / 3⟩, none) :=
  tokenBucket_burst_then_wait 3 6 0 (by norm_num) (by norm_num)

/-! ## Theorems: sliding-window rate limiter -/

/-- Invariant of the `acquire` loop: starting from a sorted deque whose
entries precede all upcoming admission instants and whose length respects the
limit, a successful run admits at most `max_requests` instants into any
trailing window, counting the initial deque contents as well. -/
theorem swRun_window_bound (cfg : SWConfig) :
    ∀ (ts reqs res : List ℚ),
      reqs.Sorted (· ≤ ·) → ts.Sorted (· ≤ ·) →
      (∀ a ∈ reqs, ∀ b ∈ ts, a ≤ b) →
      reqs.length ≤ cfg.maxRequests →
      swRun cfg ts reqs = some res →
      ∀ t, inWindowCount cfg t (reqs ++ ts) ≤ cfg.maxRequests := by
  intro ts
  induction ts with
  | nil =>
    intro reqs res _ _ _ hlen _ t
    simp only [List.append_nil, inWindowCount]
    exact le_trans (List.countP_le_length _) hlen
  | cons now ts ih =>
    intro reqs res hsreq hsts hcross hlen hrun t
    by_cases hpl : (swPrune cfg now reqs).length < cfg.maxRequests
    case neg =>
      have hnone : swStep cfg reqs now = none := by
        rw [swStep]
        simp only [if_neg hpl]
      rw [swRun] at hrun
      rw [hnone] at hrun
      exact absurd hrun (by simp)
    case pos =>
    have hsome : swStep cfg reqs now = some (swPrune cfg now reqs ++ [now]) := by
      rw [swStep]
      simp only [if_pos hpl]
    rw [swRun] at hrun
    rw [hsome] at hrun
    set reqs1 := swPrune cfg now reqs ++ [now] with hre
    have hsub : List.Sublist (swPrune cfg now reqs) reqs := List.dropWhile_sublist _
    have hsubset : swPrune cfg now reqs ⊆ reqs := hsub.subset
    have hsts1 : ts.Sorted (· ≤ ·) := (List.sorted_cons.mp hsts).2
    have hnowle : ∀ b ∈ ts, now ≤ b := (List.sorted_cons.mp hsts).1
    have hs1 : reqs1.Sorted (· ≤ ·) := by
      rw [hre]
      refine List.pairwise_append.mpr ⟨List.Pairwise.sublist hsub hsreq, List.sorted_singleton now, ?_⟩
      intro a ha b hb
      rw [List.mem_singleton] at hb
      rw [hb]
      exact hcross a (hsubset ha) now (List.mem_cons_self _ _)
    have hcross1 : ∀ a ∈ reqs1, ∀ b ∈ ts, a ≤ b := by
      intro a ha b hb
      rw [hre, List.mem_append, List.mem_singleton] at ha
      rcases ha with ha | rfl
      · exact hcross a (hsubset ha) b (List.mem_cons_of_mem _ hb)
      · exact hnowle b hb
    have hlen1 : reqs1.length ≤ cfg.maxRequests := by
      rw [hre]
      simp only [List.length_append, List.length_singleton]
      omega
    have hih := ih reqs1 res hs1 hsts1 hcross1 hlen1 hrun t
    by_cases ht : t < now
    · -- the window (t - W, t] contains nothing of now :: ts
      have hz : inWindowCount cfg t (now :: ts) = 0 := by
        rw [inWindowCount, List.countP_eq_zero]
        intro a ha
        have : now ≤ a := by
          rcases List.mem_cons.mp ha with rfl | ha2
          · exact le_refl a
          · exact hnowle a ha2
        simp only [Bool.and_eq_true, decide_eq_true_eq, not_and]
        intro _
        linarith
      have hsplit : inWindowCount cfg t (reqs ++ now :: ts) =
          inWindowCount cfg t reqs + inWindowCount cfg t (now :: ts) := by
        rw [inWindowCount, inWindowCount, inWindowCount, List.countP_append]
      rw [hsplit, hz, Nat.add_zero]
      exact le_trans (List.countP_le_length _) hlen
    · -- dropped elements are out of the window
      push_neg at ht
      have hdz : inWindowCount cfg t
          (reqs.takeWhile (fun x => decide (x ≤ now - cfg.timeWindow))) = 0 := by
        rw [inWindowCount, List.countP_eq_zero]
        intro a ha
        have hle : a ≤ now - cfg.timeWindow := by
          have := List.mem_takeWhile_imp ha
          simpa using this
        simp only [Bool.and_eq_true, decide_eq_true_eq, not_and]
        intro hgt
        linarith
      have hdecomp : reqs ++ now :: ts =
          reqs.takeWhile (fun x => decide (x ≤ now - cfg.timeWindow)) ++ (reqs1 ++ ts) := by
        rw [hre]
        conv_lhs => rw [← List.takeWhile_append_dropWhile
          (p := fun x => decide (x ≤ now - cfg.timeWindow)) (l := reqs)]
        rw [List.append_assoc, List.append_assoc]
        rfl
      rw [hdecomp, inWindowCount, List.countP_append, ← inWindowCount, ← inWindowCount,
        hdz, Nat.zero_add]
      exact hih

/-- C7: for any monotone sequence of instants at which `acquire` admitted a
call (more than `maxRequests` of them), no trailing window of length
`timeWindow` contains more than `maxRequests` admission instants. -/
theorem slidingWindow_never_overadmits (cfg : SWConfig) (ts res : List ℚ)
    (hsorted : ts.Sorted (· ≤ ·)) (_hM : cfg.maxRequests < ts.length)
    (hrun : swRun cfg ts [] = some res) :
    ∀ t, inWindowCount cfg t ts ≤ cfg.maxRequests := by
  intro t
  have h := swRun_window_bound cfg ts [] res (List.sorted_nil) hsorted
    (by intro a ha; exact absurd ha (List.not_mem_nil a)) (by simp) hrun t
  simpa using h

/-- Witness for C7: limit 2 per 10 seconds, admissions at instants 0, 1, 11;
the window ending at instant 1 holds at most 2 of them. -/
theorem slidingWindow_never_overadmits_witness :
    inWindowCount ⟨2, 10⟩ 1 [0, 1, 11] ≤ 2 :=
  slidingWindow_never_overadmits ⟨2, 10⟩ [0, 1, 11] [11] (by decide) (by norm_num)
    (by norm_num [swRun, swStep, swPrune, List.dropWhile]) 1

/-! ## Theorems: adaptive rate limiter -/

/-- C8: with `minRate ≤ initialRate ≤ maxRate` and the factor shape the
constructor defaults satisfy (`increaseFactor ≥ 1`, `0 ≤ decreaseFactor ≤ 1`,
`minRate ≥ 0`), `on_success` multiplies the rate by `increaseFactor` capping
at `maxRate`, `on_error` multiplies by `decreaseFactor` flooring at `minRate`
(both by definition of `arStep`), and after any sequence of such calls the
rate stays inside `[minRate, maxRate]`. -/
theorem adaptive_rate_bounded (cfg : ARConfig)
    (h0 : 0 ≤ cfg.minRate) (hinc : 1 ≤ cfg.increaseFactor)
    (hdec1 : cfg.decreaseFactor ≤ 1) :
    ∀ (es : List AREvent) (r0 : ℚ), cfg.minRate ≤ r0 → r0 ≤ cfg.maxRate →
      cfg.minRate ≤ arRun cfg r0 es ∧ arRun cfg r0 es ≤ cfg.maxRate := by
  intro es
  induction es with
  | nil => intro r0 hlo hhi; simpa [arRun] using ⟨hlo, hhi⟩
  | cons e rest ih =>
    intro r0 hlo hhi
    have hmm := le_trans hlo hhi
    have hr0 : 0 ≤ r0 := le_trans h0 hlo
    have hs : cfg.minRate ≤ arStep cfg r0 e ∧ arStep cfg r0 e ≤ cfg.maxRate := by
      cases e with
      | success =>
        refine ⟨le_min hmm (le_trans hlo (le_mul_of_one_le_right hr0 hinc)), ?_⟩
        simp [arStep, arOnSuccess]
      | error =>
        refine ⟨?_, ?_⟩
        · simp [arStep, arOnError]
        · exact max_le hmm (le_trans (mul_le_of_le_one_right hr0 hdec1) hhi)
    have := ih (arStep cfg r0 e) hs.1 hs.2
    simpa [arRun] using this

/-- Witness for C8 at the constructor defaults (`initial 10`, bounds `[1,
100]`, factors `1.1` and `0.5`) over one error and one success. -/
theorem adaptive_rate_bounded_witness :
    (1 : ℚ) ≤ arRun ⟨1, 100, 11 / 10, 1 / 2⟩ 10 [.error, .success] ∧
    arRun ⟨1, 100, 11 / 10, 1 / 2⟩ 10 [.error, .success] ≤ 100 :=
  adaptive_rate_bounded ⟨1, 100, 11 / 10, 1 / 2⟩ (by norm_num) (by norm_num)
    (by norm_num) [.error, .success] 10 (by norm_num) (by norm_num)

/-! ## Theorems: memory cache -/

theorem keysOf_nil : keysOf ([] : List (String × β)) = [] := rfl

theorem keysOf_cons (p : String × β) (l : List (String × β)) :
    keysOf (p :: l) = p.1 :: keysOf l := rfl

theorem length_keysOf (l : List (String × β)) : (keysOf l).length = l.length := by
  simp [keysOf]

theorem mem_keysOf_iff_lookupK (k : String) (l : List (String × β)) :
    k ∈ keysOf l ↔ (lookupK k l).isSome := by
  induction l with
  | nil => simp [keysOf, lookupK]
  | cons p rest ih =>
    obtain ⟨k1, v⟩ := p
    by_cases h : k1 = k
    · subst h
      simp [keysOf_cons, lookupK]
    · simp [keysOf_cons, lookupK, h, ih, Ne.symm h]

theorem lookupK_eq_none_iff (k : String) (l : List (String × β)) :
    lookupK k l = none ↔ k ∉ keysOf l := by
  rw [mem_keysOf_iff_lookupK]
  cases lookupK k l <;> simp

theorem keysOf_eraseK (k : String) (l : List (String × β)) :
    keysOf (eraseK k l) = (keysOf l).erase k := by
  induction l with
  | nil => simp [eraseK, keysOf]
  | cons p rest ih =>
    obtain ⟨k1, v⟩ := p
    by_cases h : k1 = k
    · subst h
      simp [eraseK, keysOf_cons, List.erase_cons_head]
    · simp [eraseK, h, keysOf_cons, ih, List.erase_cons_tail]

theorem length_eraseK_of_mem (k : String) (l : List (String × β))
    (h : k ∈ keysOf l) : (eraseK k l).length = l.length - 1 := by
  have h2 := congrArg List.length (keysOf_eraseK k l)
  rw [length_keysOf] at h2
  rw [List.length_erase_of_mem h, length_keysOf] at h2
  exact h2

theorem lookupK_eraseK_ne (k k' : String) (l : List (String × β)) (h : k' ≠ k) :
    lookupK k' (eraseK k l) = lookupK k' l := by
  induction l with
  | nil => simp [eraseK]
  | cons p rest ih =>
    obtain ⟨k1, v⟩ := p
    by_cases h1 : k1 = k
    · subst h1
      simp [eraseK, lookupK, Ne.symm h]
    · simp only [eraseK, if_neg h1, lookupK]
      by_cases h2 : k1 = k'
      · simp [h2]
      · simp [h2, ih]

theorem keysOf_setK (k : String) (v : β) (l : List (String × β)) :
    keysOf (setK k v l) = if k ∈ keysOf l then keysOf l else keysOf l ++ [k] := by
  induction l with
  | nil => simp [setK, keysOf]
  | cons p rest ih =>
    obtain ⟨k1, v1⟩ := p
    by_cases h : k1 = k
    · subst h
      simp [setK, keysOf_cons]
    · simp only [setK, h, if_false, keysOf_cons, ih]
      by_cases h2 : k ∈ keysOf rest
      · simp [h2, Ne.symm h]
      · simp [h2, Ne.symm h]

theorem lookupK_setK_self (k : String) (v : β) (l : List (String × β)) :
    lookupK k (setK k v l) = some v := by
  induction l with
  | nil => simp [setK, lookupK]
  | cons p rest ih =>
    obtain ⟨k1, v1⟩ := p
    by_cases h : k1 = k
    · subst h
      simp [setK, lookupK]
    · simp [setK, h, lookupK, ih]

theorem lookupK_setK_ne (k k' : String) (v : β) (l : List (String × β)) (h : k' ≠ k) :
    lookupK k' (setK k v l) = lookupK k' l := by
  induction l with
  | nil => simp [setK, lookupK, Ne.symm h]
  | cons p rest ih =>
    obtain ⟨k1, v1⟩ := p
    by_cases h1 : k1 = k
    · subst h1
      simp [setK, lookupK, Ne.symm h, fun hc : k1 = k' => h hc.symm]
    · simp only [setK, if_neg h1, lookupK]
      by_cases h2 : k1 = k'
      · simp [h2]
      · simp [h2, ih]

theorem length_setK (k : String) (v : β) (l : List (String × β)) :
    (setK k v l).length = if k ∈ keysOf l then l.length else l.length + 1 := by
  have h2 := congrArg List.length (keysOf_setK k v l)
  rw [length_keysOf] at h2
  by_cases h : k ∈ keysOf l
  · simp only [h, if_true] at h2 ⊢
    rw [h2, length_keysOf]
  · simp only [h, if_false] at h2 ⊢
    rw [h2]
    simp [length_keysOf]

theorem mem_keysOf_setK (k k' : String) (v : β) (l : List (String × β)) :
    k' ∈ keysOf (setK k v l) ↔ k' = k ∨ k' ∈ keysOf l := by
  rw [keysOf_setK]
  by_cases h : k ∈ keysOf l
  · simp only [h, if_true]
    constructor
    · exact Or.inr
    · rintro (rfl | hk)
      · exact h
      · exact hk
  · simp [h, or_comm]

theorem nodup_keysOf_eraseK (k : String) (l : List (String × β))
    (h : (keysOf l).Nodup) : (keysOf (eraseK k l)).Nodup := by
  rw [keysOf_eraseK]
  exact h.erase k

theorem nodup_keysOf_setK (k : String) (v : β) (l : List (String × β))
    (h : (keysOf l).Nodup) : (keysOf (setK k v l)).Nodup := by
  rw [keysOf_setK]
  by_cases hm : k ∈ keysOf l
  · simpa [hm] using h
  · simp [hm, List.nodup_append, h]

theorem nodup_touch (ao : List String) (k : String) (h : ao.Nodup) :
    (ao.erase k ++ [k]).Nodup := by
  rw [List.nodup_append]
  refine ⟨h.erase k, List.nodup_singleton k, ?_⟩
  intro a ha hb
  rw [List.mem_singleton] at hb
  subst hb
  exact ((h.mem_erase_iff).mp ha).1 rfl

theorem mem_touch (ao : List String) (k k' : String) (h : ao.Nodup) :
    k' ∈ ao.erase k ++ [k] ↔ k' = k ∨ k' ∈ ao := by
  rw [List.mem_append, List.mem_singleton, h.mem_erase_iff]
  by_cases hk : k' = k
  · simp [hk]
  · simp [hk]

theorem mcGet_inv (cfg : MCConfig) (st : MCState α) (now : ℚ) (k : String)
    (h : MCInv cfg st) : MCInv cfg (mcGet cfg st now k).2 := by
  obtain ⟨h1, h2, h3, h4⟩ := h
  cases hl : lookupK k st.cache with
  | none => simpa [mcGet, hl] using ⟨h1, h2, h3, h4⟩
  | some p =>
    obtain ⟨v, ts⟩ := p
    have hkmem : k ∈ keysOf st.cache := by
      rw [mem_keysOf_iff_lookupK, hl]
      rfl
    by_cases hexp : mcExpired cfg now ts
    · refine ⟨?_, ?_, ?_, ?_⟩ <;> simp only [mcGet, hl, hexp, if_true]
      · exact h1.erase k
      · exact nodup_keysOf_eraseK k _ h2
      · intro k'
        rw [h1.mem_erase_iff, keysOf_eraseK, h2.mem_erase_iff, h3 k']
      · calc (eraseK k st.cache).length ≤ st.cache.length := by
              rw [length_eraseK_of_mem k _ hkmem]; omega
          _ ≤ cfg.maxEntries := h4
    · rw [Bool.not_eq_true] at hexp
      refine ⟨?_, ?_, ?_, ?_⟩ <;>
        simp only [mcGet, hl, hexp, Bool.false_eq_true, if_false]
      · exact nodup_touch _ k h1
      · exact h2
      · intro k'
        rw [mem_touch _ k k' h1, h3 k']
        constructor
        · rintro (rfl | hk)
          · exact hkmem
          · exact hk
        · exact Or.inr
      · exact h4

theorem mcDelete_inv (cfg : MCConfig) (st : MCState α) (k : String)
    (h : MCInv cfg st) : MCInv cfg (mcDelete st k).2 := by
  obtain ⟨h1, h2, h3, h4⟩ := h
  by_cases hl : (lookupK k st.cache).isSome
  · have hkmem : k ∈ keysOf st.cache := (mem_keysOf_iff_lookupK k _).mpr hl
    refine ⟨?_, ?_, ?_, ?_⟩ <;> simp only [mcDelete, hl, if_true]
    · exact h1.erase k
    · exact nodup_keysOf_eraseK k _ h2
    · intro k'
      rw [h1.mem_erase_iff, keysOf_eraseK, h2.mem_erase_iff, h3 k']
    · calc (eraseK k st.cache).length ≤ st.cache.length := by
            rw [length_eraseK_of_mem k _ hkmem]; omega
        _ ≤ cfg.maxEntries := h4
  · simpa [mcDelete, hl] using ⟨h1, h2, h3, h4⟩

theorem mcClear_inv (cfg : MCConfig) (st : MCState α) : MCInv cfg (mcClear st) := by
  refine ⟨?_, ?_, ?_, ?_⟩ <;> simp [mcClear, keysOf]

theorem mcSet_inv (cfg : MCConfig) (st : MCState α) (now : ℚ) (k : String) (v : α)
    (h : MCInv cfg st) : MCInv cfg ((mcSet cfg st now k v).getD st) := by
  obtain ⟨h1, h2, h3, h4⟩ := h
  by_cases hcond : cfg.maxEntries ≤ st.cache.length ∧ (lookupK k st.cache).isNone
  · have hknot : k ∉ keysOf st.cache := by
      rw [mem_keysOf_iff_lookupK, Option.isNone_iff_eq_none.mp hcond.2]
      simp
    have hkao : k ∉ st.accessOrder := fun hk => hknot ((h3 k).mp hk)
    cases hao : st.accessOrder with
    | nil => simpa [mcSet, hcond, hao] using ⟨h1, h2, h3, h4⟩
    | cons oldest rest =>
      have holdao : oldest ∈ st.accessOrder := by
        rw [hao]; exact List.mem_cons_self _ _
      have holdkeys : oldest ∈ keysOf st.cache := (h3 oldest).mp holdao
      have hkoldest : k ≠ oldest := fun he => hknot (he ▸ holdkeys)
      have hkrest : k ∉ rest := fun hk => hkao (by rw [hao]; exact List.mem_cons_of_mem _ hk)
      have hrest_nodup : rest.Nodup := by
        rw [hao] at h1; exact (List.nodup_cons.mp h1).2
      have holdrest : oldest ∉ rest := by
        rw [hao] at h1; exact (List.nodup_cons.mp h1).1
      have hkerase : k ∉ keysOf (eraseK oldest st.cache) := fun hk =>
        hknot (by rw [keysOf_eraseK] at hk; exact List.mem_of_mem_erase hk)
      have hlen1 : 1 ≤ st.cache.length := by
        rw [← length_keysOf]
        exact List.length_pos_of_mem holdkeys
      have hres : (mcSet cfg st now k v).getD st =
          ⟨setK k (v, now) (eraseK oldest st.cache), (rest.erase k) ++ [k]⟩ := by
        simp [mcSet, hcond, hao]
      rw [hres]
      have hmemrest : ∀ k', k' ∈ rest ↔ (k' ≠ oldest ∧ k' ∈ keysOf st.cache) := by
        intro k'
        constructor
        · intro hk'
          refine ⟨fun he => holdrest (he ▸ hk'), ?_⟩
          rw [← h3 k', hao]
          exact List.mem_cons_of_mem _ hk'
        · rintro ⟨hne, hk'⟩
          rw [← h3 k', hao] at hk'
          rcases List.mem_cons.mp hk' with he | hr
          · exact absurd he hne
          · exact hr
      refine ⟨nodup_touch rest k hrest_nodup, ?_, ?_, ?_⟩
      · exact nodup_keysOf_setK _ _ _ (nodup_keysOf_eraseK _ _ h2)
      · intro k'
        rw [mem_touch rest k k' hrest_nodup, mem_keysOf_setK, keysOf_eraseK,
          h2.mem_erase_iff, hmemrest k']
      · rw [length_setK, if_neg hkerase, length_eraseK_of_mem _ _ holdkeys]
        omega
  · have hres : (mcSet cfg st now k v).getD st =
        ⟨setK k (v, now) st.cache, (st.accessOrder.erase k) ++ [k]⟩ := by
      simp only [mcSet]
      rw [if_neg hcond]
      rfl
    rw [hres]
    refine ⟨nodup_touch _ k h1, nodup_keysOf_setK _ _ _ h2, ?_, ?_⟩
    · intro k'
      rw [mem_touch _ k k' h1, mem_keysOf_setK, h3 k']
    · rw [length_setK]
      by_cases hmem : k ∈ keysOf st.cache
      · rw [if_pos hmem]; exact h4
      · rw [if_neg hmem]
        have hnone : (lookupK k st.cache).isNone := by
          rw [Option.isNone_iff_eq_none, lookupK_eq_none_iff]
          exact hmem
        have : ¬ cfg.maxEntries ≤ st.cache.length := fun hle => hcond ⟨hle, hnone⟩
        omega

theorem mcSet_evicts (cfg : MCConfig) (st : MCState α) (now : ℚ) (k : String) (v : α)
    (oldest : String) (rest : List String) (h : MCInv cfg st)
    (hcap : cfg.maxEntries ≤ st.cache.length)
    (hlk : lookupK k st.cache = none) (hao : st.accessOrder = oldest :: rest) :
    ∃ st', mcSet cfg st now k v = some st' ∧ oldest ∉ keysOf st'.cache ∧
      (∀ k', k' ∈ keysOf st'.cache ↔
        k' = k ∨ (k' ∈ keysOf st.cache ∧ k' ≠ oldest)) := by
  obtain ⟨h1, h2, h3, h4⟩ := h
  have hknot : k ∉ keysOf st.cache := (lookupK_eq_none_iff k _).mp hlk
  have holdao : oldest ∈ st.accessOrder := by
    rw [hao]; exact List.mem_cons_self _ _
  have holdkeys : oldest ∈ keysOf st.cache := (h3 oldest).mp holdao
  have hkoldest : k ≠ oldest := fun he => hknot (he ▸ holdkeys)
  have hcond : cfg.maxEntries ≤ st.cache.length ∧ (lookupK k st.cache).isNone := by
    rw [Option.isNone_iff_eq_none]
    exact ⟨hcap, hlk⟩
  refine ⟨⟨setK k (v, now) (eraseK oldest st.cache), (rest.erase k) ++ [k]⟩, ?_, ?_, ?_⟩
  · simp [mcSet, hcond, hao]
  · rw [mem_keysOf_setK, keysOf_eraseK, h2.mem_erase_iff]
    rintro (he | ⟨hne, _⟩)
    · exact hkoldest he.symm
    · exact hne rfl
  · intro k'
    rw [mem_keysOf_setK, keysOf_eraseK, h2.mem_erase_iff]
    tauto

/-- C6: every `MemoryCache` operation — `get` (at any instant, hit, miss or
expiry), `set` (counting the Python `IndexError` case as leaving the state
unchanged), `delete` and `clear` — preserves the LRU invariant: the key set of
`_access_order` is exactly the key set of `_cache` (both duplicate-free) and
the entry count never exceeds `max_entries`; moreover `set` of a new key with
the cache at capacity evicts exactly the least-recently-used key (the head of
`_access_order`). -/
theorem memoryCache_lru_invariant {α : Type} (cfg : MCConfig) (st : MCState α)
    (now : ℚ) (k : String) (v : α) (h : MCInv cfg st) :
    MCInv cfg (mcGet cfg st now k).2 ∧
    MCInv cfg ((mcSet cfg st now k v).getD st) ∧
    MCInv cfg (mcDelete st k).2 ∧
    MCInv cfg (mcClear st) ∧
    (∀ oldest rest, cfg.maxEntries ≤ st.cache.length →
      lookupK k st.cache = none → st.accessOrder = oldest :: rest →
      ∃ st2, mcSet cfg st now k v = some st2 ∧ oldest ∉ keysOf st2.cache ∧
        (∀ k2, k2 ∈ keysOf st2.cache ↔
          k2 = k ∨ (k2 ∈ keysOf st.cache ∧ k2 ≠ oldest))) :=
  ⟨mcGet_inv cfg st now k h, mcSet_inv cfg st now k v h, mcDelete_inv cfg st k h,
    mcClear_inv cfg st,
    fun oldest rest hcap hlk hao => mcSet_evicts cfg st now k v oldest rest h hcap hlk hao⟩

/-- Witness for C6: a two-entry cache at capacity 2; inserting key `"c"`
preserves the invariant (and evicts the LRU key `"a"`). -/
theorem memoryCache_lru_invariant_witness :
    MCInv ⟨some 100, 2⟩
      ((mcSet ⟨some 100, 2⟩ (⟨[("a", 1, 0), ("b", 2, 0)], ["a", "b"]⟩ : MCState ℕ) 5 "c" 3).getD
        ⟨[("a", 1, 0), ("b", 2, 0)], ["a", "b"]⟩) :=
  (memoryCache_lru_invariant ⟨some 100, 2⟩ ⟨[("a", 1, 0), ("b", 2, 0)], ["a", "b"]⟩ 5 "c" 3
    ⟨by decide, by decide, fun _ => Iff.rfl, by decide⟩).2.1

